import Mathlib

/-!
Shallow embedding of the polygonGBA delta audio codecs.

Sources embedded here:
* `src/compression/encoder/delta_encoder.py` — class `DeltaEncoder`
  (variable-width delta codec: `quantize_delta`, `compress_audio_delta`,
  `pack_encoded_data`, `decode_delta_data`);
* `src/compression/encoder/gba_optimized_codec.py` — function
  `gba_optimized_compression` (fixed-width 8-bit codec: quantization with
  dither, delta serialization, and the in-function decode).

Floating-point sample values are modelled as rationals (`ℚ`); Python's
arbitrary-precision integers as `ℤ`/`ℕ`; bytes as `ℕ` values `< 256`.
The random dither drawn by `np.random.triangular(-0.5, 0, 0.5)` in the
fixed-width encoder is made an explicit argument.
-/

namespace PolygonGBA

/-- Python `int(x)` on a float: truncation toward zero. -/
def ratTrunc (q : ℚ) : ℤ :=
  if 0 ≤ q then ⌊q⌋ else -⌊-q⌋

/-- NumPy `np.round`: round half to even (banker's rounding). -/
def roundHalfEven (q : ℚ) : ℤ :=
  let f := ⌊q⌋
  let r := q - (f : ℚ)
  if r < 1/2 then f
  else if 1/2 < r then f + 1
  else if f % 2 = 0 then f else f + 1

/-- Python `max(lo, min(hi, x))` / `np.clip(x, lo, hi)`. -/
def clampI (lo hi x : ℤ) : ℤ := max lo (min hi x)

/-- NumPy `int8` wraparound arithmetic (two's-complement modulo 256). -/
def wrap8 (x : ℤ) : ℤ := (x + 128) % 256 - 128

/-- Serialization of a signed value as one two's-complement byte
(`np.int8(...).tobytes()`). -/
def int8Byte (v : ℤ) : ℕ := (v % 256).toNat

/-- Reading one byte back as a signed `int8` (`np.frombuffer(-, np.int8)`). -/
def byteToInt8 (b : ℕ) : ℤ := if b < 128 then (b : ℤ) else (b : ℤ) - 256

/-- Python `value & ((1 << bits) - 1)`: low `bits` bits of an arbitrary
precision integer, two's complement for negatives. -/
def maskBits (v : ℤ) (bits : ℕ) : ℕ := (v % (2 ^ bits : ℕ)).toNat

/-- Little-endian 4-byte encoding of an unsigned 32-bit value
(`struct.pack` with format `<I` / `np.uint32.tobytes`). -/
def le32Bytes (n : ℕ) : List ℕ :=
  [n % 256, n / 256 % 256, n / 65536 % 256, n / 16777216 % 256]

/-- Value of a byte list read little-endian (first byte least significant). -/
def bytesVal : List ℕ → ℕ
  | [] => 0
  | b :: rest => b + 256 * bytesVal rest

section DeltaEncoder

/-- Tier tag of an encoded entry (first component of the Python tuples
`('reference', 16, v)`, `('small', 4, v)`, `('medium', 8, v)`,
`('large', 12, v)` built by `DeltaEncoder.compress_audio_delta`). -/
inductive EntryTag where
  | reference
  | small
  | medium
  | large
deriving DecidableEq, Repr

/-- One encoded entry `(entry_type, bits, value)` of
`DeltaEncoder.compress_audio_delta`. -/
structure Entry where
  tag : EntryTag
  bits : ℕ
  value : ℤ
deriving DecidableEq, Repr

instance : Inhabited Entry := ⟨⟨.reference, 16, 0⟩⟩

/-- Dictionary `DeltaEncoder.quantization_levels = {4: 16, 8: 256, 12: 4096}`;
`none` models the `KeyError` raised on any other key. -/
def quantization_levels (bits : ℕ) : Option ℕ :=
  if bits = 4 then some 16
  else if bits = 8 then some 256
  else if bits = 12 then some 4096
  else none

/-- Body of `DeltaEncoder.quantize_delta` once the level count `lv` has been
looked up: `max_val = lv // 2 - 1`, `min_val = -max_val - 1`,
`scaled = int(delta * max_val / 1.0)`, clamped to `[min_val, max_val]`. -/
def quantizeLv (delta : ℚ) (lv : ℕ) : ℤ :=
  let max_val : ℤ := (lv : ℤ) / 2 - 1
  let min_val : ℤ := -max_val - 1
  let scaled : ℤ := ratTrunc (delta * (max_val : ℚ) / 1)
  max min_val (min max_val scaled)

/-- `DeltaEncoder.quantize_delta(delta, bits)`: dictionary lookup (which can
fail) followed by scale, truncate, clamp. -/
def quantize_delta (delta : ℚ) (bits : ℕ) : Option ℤ :=
  (quantization_levels bits).map (quantizeLv delta)

/-- Tier classification: the `if abs_delta < 0.01 / elif abs_delta < 0.1 /
else` chain of `DeltaEncoder.compress_audio_delta`. -/
def classify (delta : ℚ) : EntryTag :=
  if |delta| < 1/100 then .small
  else if |delta| < 1/10 then .medium
  else .large

/-- Encoding of one delta inside the loop of
`DeltaEncoder.compress_audio_delta`: the same `if abs_delta < 0.01 / elif
abs_delta < 0.1 / else` chain as `classify`, quantizing at the tier's bit
width (4, 8 or 12; the dictionary lookups succeed for these keys, so the
tier's level count is inlined). -/
def compressEntry (d : ℚ) : Entry :=
  if |d| < 1/100 then ⟨.small, 4, quantizeLv d 16⟩
  else if |d| < 1/10 then ⟨.medium, 8, quantizeLv d 256⟩
  else ⟨.large, 12, quantizeLv d 4096⟩

/-- NumPy `np.diff(audio)`: consecutive differences `audio[i+1] - audio[i]`. -/
def deltasOf (audio : List ℚ) : List ℚ :=
  List.zipWith (fun a b => b - a) audio audio.tail

/-- Reference value `int(audio[0] * 32767)` stored by
`DeltaEncoder.compress_audio_delta` (16-bit reference entry). -/
def firstSampleOf (audio : List ℚ) : ℤ := ratTrunc (audio.headI * 32767)

/-- `DeltaEncoder.compress_audio_delta`: the produced `encoded_data` list —
a 16-bit reference entry followed by one classified, quantized entry per
delta.  (Python indexes `audio[0]`, so callers pass a non-empty list; the
statistics dictionary it also returns carries no codec state.) -/
def compress_audio_delta (audio : List ℚ) : List Entry :=
  ⟨.reference, 16, firstSampleOf audio⟩ :: (deltasOf audio).map compressEntry

/-- Loop of `DeltaEncoder.decode_delta_data` over `encoded_data[1:]`:
dequantize each entry (`delta = quantized / max_val`, where
`max_val = quantization_levels[bits] // 2 - 1` and the dictionary lookup can
fail) and accumulate `reconstructed[i] = reconstructed[i-1] + delta` with no
clamping. -/
def decodeLoop (prev : ℚ) : List Entry → Option (List ℚ)
  | [] => some []
  | e :: rest =>
    match quantization_levels e.bits with
    | none => none
    | some lv =>
      let next := prev + (e.value : ℚ) / ((lv / 2 - 1 : ℕ) : ℚ)
      (decodeLoop next rest).map (next :: ·)

/-- `DeltaEncoder.decode_delta_data`: start from
`first_sample / 32767.0`, then fold the deltas. -/
def decode_delta_data (encoded : List Entry) (first_sample : ℤ) : Option (List ℚ) :=
  let r0 : ℚ := (first_sample : ℚ) / 32767
  (decodeLoop r0 (encoded.drop 1)).map (r0 :: ·)

/-- Specification helper: the reconstructed-sample list that `decodeLoop`
produces when every entry's bit width is a valid dictionary key (the level
count of a valid key `bits` is `2 ^ bits`, so `max_val = 2 ^ bits / 2 - 1`). -/
def reconList (prev : ℚ) : List Entry → List ℚ
  | [] => []
  | e :: rest =>
    let next := prev + (e.value : ℚ) / ((2 ^ e.bits / 2 - 1 : ℕ) : ℚ)
    next :: reconList next rest

/-- Inner flush of `DeltaEncoder.pack_encoded_data`:
`while bits_in_buffer >= 8: emit (bit_buffer & 0xFF); bit_buffer >>= 8;
bits_in_buffer -= 8`.  Returns the emitted bytes and the final
buffer/bit-count pair. -/
def flushFull (acc nbits : ℕ) : List ℕ × ℕ × ℕ :=
  if 8 ≤ nbits then
    let r := flushFull (acc >>> 8) (nbits - 8)
    ((acc &&& 255) :: r.1, r.2.1, r.2.2)
  else ([], acc, nbits)
termination_by nbits

/-- Packing loop of `DeltaEncoder.pack_encoded_data`: for each entry, OR
`value & ((1 << bits) - 1)` into the bit buffer at the current offset, flush
whole bytes, and after the last entry flush the remaining partial byte
(`bit_buffer & 0xFF`) if any bits are left. -/
def packBits : List Entry → ℕ → ℕ → List ℕ
  | [], acc, nbits => if 0 < nbits then [acc &&& 255] else []
  | e :: rest, acc, nbits =>
    let acc2 := acc ||| maskBits e.value e.bits <<< nbits
    let f := flushFull acc2 (nbits + e.bits)
    f.1 ++ packBits rest f.2.1 f.2.2

/-- `DeltaEncoder.pack_encoded_data`: magic `b'PGDD'`, little-endian u32
entry count `len(encoded_data)`, then the packed bitstream. -/
def pack_encoded_data (encoded : List Entry) : List ℕ :=
  [80, 71, 68, 68] ++ le32Bytes encoded.length ++ packBits encoded 0 0

/-- Modelled from the spec: the repository contains no bit unpacker (the
Python decoder reuses the in-memory entry list), so this byte-pulling step
follows spec §4.3 `BitUnpacker`: pull bytes from the buffer into the
accumulator until at least `w` bits are available; `none` models the
`TruncatedStream` failure when the buffer is exhausted first. -/
def pullBytes : List ℕ → ℕ → ℕ → ℕ → Option (List ℕ × ℕ × ℕ)
  | buf, acc, nbits, w =>
    if w ≤ nbits then some (buf, acc, nbits)
    else
      match buf with
      | [] => none
      | b :: rest => pullBytes rest (acc ||| b <<< nbits) (nbits + 8) w

/-- Modelled from the spec (§4.3 `BitUnpacker`): for each requested width,
pull bytes as needed, extract the low `w` bits as the next unsigned code,
and shift the accumulator down by `w`. -/
def unpackBits : List ℕ → List ℕ → ℕ → ℕ → Option (List ℕ)
  | _, [], _, _ => some []
  | buf, w :: ws, acc, nbits =>
    match pullBytes buf acc nbits w with
    | none => none
    | some (buf2, acc2, nbits2) =>
      (unpackBits buf2 ws (acc2 >>> w) (nbits2 - w)).map ((acc2 &&& (2 ^ w - 1)) :: ·)

/-- Modelled from the spec: `unpack(buffer, widths)` starting from an empty
accumulator. -/
def unpackStream (buf : List ℕ) (widths : List ℕ) : Option (List ℕ) :=
  unpackBits buf widths 0 0

/-- Proof helper: value of the packed entry stream as one natural number,
least-significant (first) entry lowest. -/
def entriesVal : List Entry → ℕ
  | [] => 0
  | e :: rest => maskBits e.value e.bits + entriesVal rest * 2 ^ e.bits

/-- Proof helper: total bit length of an entry list. -/
def sumBits : List Entry → ℕ
  | [] => 0
  | e :: rest => e.bits + sumBits rest

/-- Proof helper: successive low-bit chunks of a natural number, one chunk
per requested width. -/
def chunkList : List ℕ → ℕ → List ℕ
  | [], _ => []
  | w :: ws, m => m % 2 ^ w :: chunkList ws (m / 2 ^ w)

end DeltaEncoder

section GbaCodec

/-- NumPy `np.max(np.abs(audio_resampled))` in `gba_optimized_compression`
(callers pass a non-empty list; the fold default 0 is never the maximum of
a non-empty list of absolute values unless all are 0). -/
def peakOf (audio : List ℚ) : ℚ := (audio.map (fun s => |s|)).foldr max 0

/-- Scale factor of `gba_optimized_compression`: `121.0 / audio_peak` when
the peak is positive (95% of the int8 range as headroom), else the audio is
scaled by `127.0`. -/
def gbaScale (audio : List ℚ) : ℚ :=
  if 0 < peakOf audio then 121 / peakOf audio else 127

/-- Quantization step of `gba_optimized_compression`:
`np.clip(np.round(audio * scale + dither), -128, 127).astype(np.int8)`.
The dither values drawn from `np.random.triangular(-0.5, 0, 0.5)` are an
explicit argument. -/
def gbaQuantize (audio dither : List ℚ) : List ℤ :=
  List.zipWith
    (fun s d => clampI (-128) 127 (roundHalfEven (s * gbaScale audio + d)))
    audio dither

/-- Delta step of `gba_optimized_compression`:
`np.clip(np.diff(audio_8bit.astype(np.int16)), -128, 127).astype(np.int8)`
(the int16 cast makes the subtraction exact before clamping). -/
def gbaDeltas (q : List ℤ) : List ℤ :=
  List.zipWith (fun a b => clampI (-128) 127 (b - a)) q q.tail

/-- File layout written by `gba_optimized_compression`: magic `b'FQWT'`,
little-endian u32 sample rate 6750, little-endian u32 delta count, the first
quantized sample as one `int8` byte, then one `int8` byte per delta. -/
def gbaEncode (audio dither : List ℚ) : List ℕ :=
  let q := gbaQuantize audio dither
  let ds := gbaDeltas q
  [70, 81, 87, 84] ++ le32Bytes 6750 ++ le32Bytes ds.length
    ++ int8Byte q.headI :: ds.map int8Byte

/-- Reconstruction loop of the decode half of `gba_optimized_compression`:
`next = current + delta` is NumPy `int8 + int8` arithmetic, which wraps
modulo 256 before the subsequent `max(-128, min(127, next))` clamp. -/
def gbaReconFrom (current : ℤ) : List ℤ → List ℤ
  | [] => []
  | d :: rest =>
    let next := clampI (-128) 127 (wrap8 (current + d))
    next :: gbaReconFrom next rest

/-- Decode half of `gba_optimized_compression`: check the magic tag
(`raise ValueError("Bad magic")` on mismatch), read the header fields
(`np.frombuffer` fails when fewer than 13 bytes are present), read ALL
remaining bytes as deltas — the declared `num_deltas` is read but never
validated — reconstruct, drop the last sample (`reconstructed[:-1]`) and
divide by `127.0`. -/
def gbaDecode (bytes : List ℕ) : Except String (ℕ × List ℚ) :=
  if bytes.take 4 ≠ [70, 81, 87, 84] then .error "Bad magic"
  else if bytes.length < 13 then .error "buffer too small"
  else
    let sample_rate := bytesVal ((bytes.drop 4).take 4)
    let first := byteToInt8 (bytes.getD 12 0)
    let deltas := (bytes.drop 13).map byteToInt8
    let reconstructed := first :: gbaReconFrom first deltas
    .ok (sample_rate, reconstructed.dropLast.map (fun v : ℤ => (v : ℚ) / 127))

end GbaCodec

section BasicLemmas

lemma clampI_le (lo hi x : ℤ) (h : lo ≤ hi) : clampI lo hi x ≤ hi :=
  max_le h (min_le_left _ _)

lemma le_clampI (lo hi x : ℤ) : lo ≤ clampI lo hi x := le_max_left _ _

lemma ratTrunc_intCast (n : ℤ) : ratTrunc (n : ℚ) = n := by
  unfold ratTrunc
  split_ifs with h
  · exact_mod_cast Int.floor_intCast n
  · rw [show -(n : ℚ) = ((-n : ℤ) : ℚ) by push_cast; ring, Int.floor_intCast]
    ring

lemma nat_and_255 (x : ℕ) : x &&& 255 = x % 256 := by
  have h := Nat.and_pow_two_sub_one_eq_mod x 8
  norm_num at h
  exact h

lemma nat_shiftRight8 (x : ℕ) : x >>> 8 = x / 256 := by
  rw [Nat.shiftRight_eq_div_pow]

lemma maskBits_lt (v : ℤ) (bits : ℕ) : maskBits v bits < 2 ^ bits := by
  unfold maskBits
  have hpos : (0 : ℤ) < ((2 ^ bits : ℕ) : ℤ) := by positivity
  have h1 := Int.emod_lt_of_pos v hpos
  have h2 := Int.emod_nonneg v (ne_of_gt hpos)
  omega

lemma maskBits_nonneg_eq (v : ℤ) (bits : ℕ) (h0 : 0 ≤ v) (h1 : v < 2 ^ bits) :
    (maskBits v bits : ℤ) = v := by
  unfold maskBits
  have heq : v % ((2 ^ bits : ℕ) : ℤ) = v := by
    apply Int.emod_eq_of_lt h0
    exact_mod_cast h1
  rw [heq, Int.toNat_of_nonneg h0]

end BasicLemmas

section ClaimC4

/-- C4: tier classification is total and partitions delta magnitudes —
`|delta| < 0.01` is Small (4 bits), `0.01 ≤ |delta| < 0.1` is Medium
(8 bits), `|delta| ≥ 0.1` is Large (12 bits); the three ranges cover all
magnitudes with no gap or overlap, each boundary value belonging to the
higher tier. -/
theorem classify_partitions_deltas (d : ℚ) :
    (classify d = .small ↔ |d| < 1/100) ∧
    (classify d = .medium ↔ 1/100 ≤ |d| ∧ |d| < 1/10) ∧
    (classify d = .large ↔ 1/10 ≤ |d|) := by
  unfold classify
  split_ifs with h1 h2
  · exact ⟨iff_of_true rfl h1,
      iff_of_false (by decide) (fun h => absurd h1 (not_lt.2 h.1)),
      iff_of_false (by decide)
        (fun h => absurd h1 (not_lt.2 (le_trans (by norm_num) h)))⟩
  · push_neg at h1
    exact ⟨iff_of_false (by decide) (fun h => absurd h (not_lt.2 h1)),
      iff_of_true rfl ⟨h1, h2⟩,
      iff_of_false (by decide) (fun h => absurd h2 (not_lt.2 h))⟩
  · push_neg at h1 h2
    exact ⟨iff_of_false (by decide)
        (fun h => absurd h (not_lt.2 (le_trans (by norm_num) h2))),
      iff_of_false (by decide) (fun h => absurd h.2 (not_lt.2 h2)),
      iff_of_true rfl h2⟩

end ClaimC4

section ClaimC10

/-- C10: `quantize_delta` is defined only for bit widths 4, 8 and 12; for
every other width (including the 16-bit reference width) the dictionary
lookup fails, modelled by the `none` branch, and this is exact: the error
branch is taken precisely when `bits ∉ {4, 8, 12}`. -/
theorem quantize_delta_domain (d : ℚ) (bits : ℕ) :
    quantize_delta d bits = none ↔ ¬(bits = 4 ∨ bits = 8 ∨ bits = 12) := by
  unfold quantize_delta quantization_levels
  split_ifs with h1 h2 h3
  · simp [h1]
  · simp [h2]
  · simp [h3]
  · simp [h1, h2, h3]

end ClaimC10

section ClaimC5

/-- Counterexample to C5: the claim says the scaled delta is rounded to the
nearest integer, but `int()` truncates toward zero: at `delta = 0.99`,
`bits = 4` the code computes `int(0.99 * 7) = 6` while rounding
`0.99 * 7 = 6.93` to the nearest integer gives `7` (no clamping is involved
since both are inside `[-8, 7]`). -/
theorem quantize_delta_truncates_not_rounds :
    quantize_delta (99/100) 4 = some 6 ∧
    max (-8 : ℤ) (min 7 (round ((99/100 : ℚ) * 7))) = 7 ∧
    (6 : ℤ) ≠ 7 := by
  refine ⟨?_, ?_, by decide⟩
  · norm_num [quantize_delta, quantization_levels, quantizeLv, ratTrunc]
  · have h : round ((99/100 : ℚ) * 7) = 7 := by norm_num [round_eq]
    rw [h]
    decide

/-- C5 (amended): for `bits ∈ {4, 8, 12}`, `quantize_delta` scales the delta
by `max_val = 2^(bits-1) - 1`, truncates toward zero (not rounds), then
clamps to `[-(max_val+1), max_val]`; it has no error path on this domain and
always lands in that range; `quantize_delta 2.0 8 = 127` and
`quantize_delta (-2.0) 8 = -128`. -/
theorem quantize_delta_saturating_truncation :
    (∀ (d : ℚ) (bits : ℕ), bits = 4 ∨ bits = 8 ∨ bits = 12 →
      ∃ v, quantize_delta d bits = some v ∧
        v = max (-(2 ^ (bits - 1)) : ℤ)
              (min ((2 : ℤ) ^ (bits - 1) - 1)
                (ratTrunc (d * ((2 : ℚ) ^ (bits - 1) - 1)))) ∧
        (-(2 ^ (bits - 1)) : ℤ) ≤ v ∧ v ≤ (2 : ℤ) ^ (bits - 1) - 1) ∧
    quantize_delta 2 8 = some 127 ∧ quantize_delta (-2) 8 = some (-128) := by
  refine ⟨?_, ?_, ?_⟩
  · rintro d bits (rfl | rfl | rfl)
    · refine ⟨quantizeLv d 16, rfl, ?_, ?_, ?_⟩
      · norm_num [quantizeLv]
      · norm_num [quantizeLv]
      · norm_num [quantizeLv]
    · refine ⟨quantizeLv d 256, rfl, ?_, ?_, ?_⟩
      · norm_num [quantizeLv]
      · norm_num [quantizeLv]
      · norm_num [quantizeLv]
    · refine ⟨quantizeLv d 4096, rfl, ?_, ?_, ?_⟩
      · norm_num [quantizeLv]
      · norm_num [quantizeLv]
      · norm_num [quantizeLv]
  · norm_num [quantize_delta, quantization_levels, quantizeLv, ratTrunc]
  · norm_num [quantize_delta, quantization_levels, quantizeLv, ratTrunc]

/-- Witness for the amended C5 at `d = 3/2`, `bits = 8`. -/
theorem quantize_delta_saturating_truncation_witness :
    ∃ v, quantize_delta (3/2) 8 = some v ∧ (-128 : ℤ) ≤ v ∧ v ≤ 127 := by
  obtain ⟨v, hv, _, h1, h2⟩ :=
    quantize_delta_saturating_truncation.1 (3/2) 8 (by norm_num)
  exact ⟨v, hv, by simpa using h1, by simpa using h2⟩

end ClaimC5

section DecodeLemmas

lemma compressEntry_bits (d : ℚ) :
    (compressEntry d).bits = 4 ∨ (compressEntry d).bits = 8 ∨
      (compressEntry d).bits = 12 := by
  unfold compressEntry
  split_ifs <;> simp

lemma decodeLoop_eq_reconList :
    ∀ (entries : List Entry) (prev : ℚ),
      (∀ e ∈ entries, e.bits = 4 ∨ e.bits = 8 ∨ e.bits = 12) →
      decodeLoop prev entries = some (reconList prev entries) := by
  intro entries
  induction entries with
  | nil => intro prev _; rfl
  | cons e rest ih =>
    intro prev hv
    have he := hv e (List.mem_cons_self e rest)
    have hrest := fun x hx => hv x (List.mem_cons_of_mem e hx)
    rcases he with h | h | h <;>
      · rw [decodeLoop, h]
        simp only [quantization_levels]
        norm_num [reconList, ih _ hrest, h]

lemma reconList_length (entries : List Entry) :
    ∀ prev, (reconList prev entries).length = entries.length := by
  induction entries with
  | nil => intro _; rfl
  | cons e rest ih => intro prev; simp [reconList, ih]

lemma reconList_getD (entries : List Entry) :
    ∀ (prev : ℚ) (i : ℕ), i < entries.length →
      (prev :: reconList prev entries).getD (i+1) 0 =
        (prev :: reconList prev entries).getD i 0 +
          ((entries.getD i default).value : ℚ) /
            ((2 ^ (entries.getD i default).bits / 2 - 1 : ℕ) : ℚ) := by
  induction entries with
  | nil => intro prev i hi; exact absurd hi (by simp)
  | cons e rest ih =>
    intro prev i hi
    match i with
    | 0 => rfl
    | j + 1 =>
      have hj : j < rest.length := by simpa using hi
      simpa [reconList] using ih _ j hj

lemma deltasOf_length (samples : List ℚ) (h : samples ≠ []) :
    (deltasOf samples).length = samples.length - 1 := by
  unfold deltasOf
  rw [List.length_zipWith, List.length_tail]
  have : 0 < samples.length := List.length_pos.2 h
  omega

lemma two_pow_div_two (b : ℕ) (hb : b ≠ 0) : 2 ^ b / 2 = 2 ^ (b - 1) := by
  cases b with
  | zero => exact absurd rfl hb
  | succ k => rw [pow_succ, Nat.mul_div_cancel _ (by norm_num), Nat.succ_sub_one]

end DecodeLemmas

section ClaimC6

/-- C6: decoding the encoder's own output sets
`reconstructed[0] = first_sample / 32767.0` and, for each subsequent entry
with bit width `bits` and code `value`,
`reconstructed[i] = reconstructed[i-1] + value / (2^(bits-1) - 1)` with no
clamping anywhere; the decoded list has exactly the length of the original
sample list. -/
theorem decode_delta_reconstruction (samples : List ℚ) (h : samples ≠ []) :
    ∃ r, decode_delta_data (compress_audio_delta samples)
          (firstSampleOf samples) = some r ∧
      r.length = samples.length ∧
      r.getD 0 0 = (firstSampleOf samples : ℚ) / 32767 ∧
      ∀ i, i + 1 < r.length →
        r.getD (i+1) 0 = r.getD i 0 +
          (((compress_audio_delta samples).getD (i+1) default).value : ℚ) /
            ((2 ^ (((compress_audio_delta samples).getD (i+1) default).bits - 1)
              - 1 : ℕ) : ℚ) := by
  set entries := (deltasOf samples).map compressEntry with hentries
  have hv : ∀ e ∈ entries, e.bits = 4 ∨ e.bits = 8 ∨ e.bits = 12 := by
    intro e he
    rw [hentries] at he
    obtain ⟨d, _, rfl⟩ := List.mem_map.1 he
    exact compressEntry_bits d
  have hloop := decodeLoop_eq_reconList entries ((firstSampleOf samples : ℚ) / 32767) hv
  refine ⟨((firstSampleOf samples : ℚ) / 32767) ::
    reconList ((firstSampleOf samples : ℚ) / 32767) entries, ?_, ?_, rfl, ?_⟩
  · simp only [decode_delta_data, compress_audio_delta, List.drop_one,
      List.tail_cons, ← hentries, hloop]
    rfl
  · have hlen := deltasOf_length samples h
    have : 0 < samples.length := List.length_pos.2 h
    simp only [List.length_cons, reconList_length, hentries, List.length_map]
    omega
  · intro i hi
    simp only [List.length_cons, reconList_length] at hi
    have hi2 : i < entries.length := by omega
    have hrec := reconList_getD entries ((firstSampleOf samples : ℚ) / 32767) i hi2
    have hget : (compress_audio_delta samples).getD (i+1) default =
        entries.getD i default := by
      unfold compress_audio_delta
      rw [← hentries]
      rfl
    have hbits : (entries.getD i default).bits ≠ 0 := by
      have hmem : entries.getD i default ∈ entries := by
        rw [List.getD_eq_getElem _ _ hi2]
        exact List.getElem_mem hi2
      rcases hv _ hmem with hb | hb | hb <;> rw [hb] <;> norm_num
    rw [hget, ← two_pow_div_two _ hbits]
    exact hrec

/-- Witness for C6 at the concrete sample list `[1/2, 1/4]`. -/
theorem decode_delta_reconstruction_witness :
    ∃ r, decode_delta_data (compress_audio_delta [1/2, 1/4])
          (firstSampleOf [1/2, 1/4]) = some r ∧
      r.length = ([1/2, 1/4] : List ℚ).length ∧
      r.getD 0 0 = (firstSampleOf [1/2, 1/4] : ℚ) / 32767 ∧
      ∀ i, i + 1 < r.length →
        r.getD (i+1) 0 = r.getD i 0 +
          (((compress_audio_delta [1/2, 1/4]).getD (i+1) default).value : ℚ) /
            ((2 ^ (((compress_audio_delta [1/2, 1/4]).getD (i+1) default).bits - 1)
              - 1 : ℕ) : ℚ) :=
  decode_delta_reconstruction [1/2, 1/4] (List.cons_ne_nil _ _)

end ClaimC6

section ClaimC8

/-- Counterexample to C8: on `[0.0, 0.005, -0.002, 0.5, -0.5]` the decoded
reconstruction at the first Small-tier step is `0` (the 4-bit quantizer maps
the delta `0.005` to code `0`), whose distance `1/200` from the original
sample `0.005` exceeds the claimed bound `1/2047`. -/
theorem small_step_error_exceeds_claimed_bound :
    decode_delta_data (compress_audio_delta [0, 1/200, -1/500, 1/2, -1/2])
        (firstSampleOf [0, 1/200, -1/500, 1/2, -1/2]) =
      some [0, 0, 0, 1027/2047, -1020/2047] ∧
    ¬(|(0 : ℚ) - 1/200| ≤ 1/2047) := by
  constructor
  · norm_num [decode_delta_data, compress_audio_delta, firstSampleOf,
      deltasOf, compressEntry, quantizeLv, ratTrunc, decodeLoop,
      quantization_levels, abs_of_nonneg, abs_of_nonpos]
  · rw [abs_of_nonpos (by norm_num)]
    norm_num

/-- C8 (amended): encoding `[0.0, 0.005, -0.002, 0.5, -0.5]` classifies the
four deltas into tiers Small, Small, Large, Large; the decoded values at the
two Small-tier steps are both `0`, at absolute errors `1/200` and `1/500`
from the originals — each within the Small tier's quantization step `1/7`,
but not within `1/2047`. -/
theorem concrete_scenario_tiers_and_small_step_errors :
    (compress_audio_delta [0, 1/200, -1/500, 1/2, -1/2]).map Entry.tag =
      [.reference, .small, .small, .large, .large] ∧
    decode_delta_data (compress_audio_delta [0, 1/200, -1/500, 1/2, -1/2])
        (firstSampleOf [0, 1/200, -1/500, 1/2, -1/2]) =
      some [0, 0, 0, 1027/2047, -1020/2047] ∧
    |(0 : ℚ) - 1/200| ≤ 1/7 ∧ |(0 : ℚ) - (-1/500)| ≤ 1/7 := by
  refine ⟨?_, ?_, ?_, ?_⟩
  · norm_num [compress_audio_delta, firstSampleOf, deltasOf, compressEntry,
      quantizeLv, ratTrunc, abs_of_nonneg, abs_of_nonpos]
  · norm_num [decode_delta_data, compress_audio_delta, firstSampleOf,
      deltasOf, compressEntry, quantizeLv, ratTrunc, decodeLoop,
      quantization_levels, abs_of_nonneg, abs_of_nonpos]
  · rw [abs_of_nonpos (by norm_num)]
    norm_num
  · rw [abs_of_nonneg (by norm_num)]
    norm_num

end ClaimC8

section PackLemmas

lemma packBits_cons16 (tag : EntryTag) (v : ℤ) (rest : List Entry) :
    packBits (⟨tag, 16, v⟩ :: rest) 0 0 =
      maskBits v 16 % 256 :: maskBits v 16 / 256 % 256 :: packBits rest 0 0 := by
  have hlt := maskBits_lt v 16
  have hz : maskBits v 16 / 256 / 256 = 0 := by
    rw [Nat.div_div_eq_div_mul]
    exact Nat.div_eq_of_lt (lt_of_lt_of_le hlt (by norm_num))
  simp [packBits, flushFull, nat_and_255, nat_shiftRight8, Nat.shiftLeft_zero,
    Nat.zero_or, hz]

end PackLemmas

section ClaimC3

/-- Counterexample to C3: the u32 at offset 4 of the serialized container is
`len(encoded_data)`, which includes the reference entry, so for the 2-sample
input `[0, 1/200]` it is 2 — not `len(samples) - 1 = 1` as the claim
states. -/
theorem container_count_is_not_len_minus_one :
    ((pack_encoded_data (compress_audio_delta [0, 1/200])).drop 4).take 4 =
      le32Bytes 2 ∧
    le32Bytes 2 ≠ le32Bytes (([0, 1/200] : List ℚ).length - 1) := by
  constructor
  · norm_num [pack_encoded_data, compress_audio_delta, firstSampleOf,
      deltasOf, compressEntry, quantizeLv, ratTrunc, le32Bytes,
      abs_of_nonneg]
  · norm_num [le32Bytes]

/-- C3 (amended): for every non-empty sample list, the serialized
variable-width container is the 4-byte magic tag `b'PGDD'`, then a
little-endian u32 entry count equal to `len(samples)` (the delta entries
PLUS the reference entry — not `len(samples) - 1`), then the reference
sample as a little-endian two's-complement i16 (the first 16 packed bits),
then the packed bitstream of the remaining entries. -/
theorem variable_container_layout (samples : List ℚ) (h : samples ≠ [])
    (hlen : samples.length < 2 ^ 32) :
    pack_encoded_data (compress_audio_delta samples) =
      [80, 71, 68, 68] ++ le32Bytes samples.length ++
        maskBits (firstSampleOf samples) 16 % 256 ::
        maskBits (firstSampleOf samples) 16 / 256 % 256 ::
        packBits ((deltasOf samples).map compressEntry) 0 0 := by
  have hd := deltasOf_length samples h
  have hpos : 0 < samples.length := List.length_pos.2 h
  have hcount : (compress_audio_delta samples).length = samples.length := by
    simp only [compress_audio_delta, List.length_cons, List.length_map, hd]
    omega
  unfold pack_encoded_data
  rw [hcount]
  unfold compress_audio_delta
  rw [packBits_cons16]

/-- Witness for the amended C3 at the one-sample list `[1/2]`. -/
theorem variable_container_layout_witness :
    pack_encoded_data (compress_audio_delta [1/2]) =
      [80, 71, 68, 68] ++ le32Bytes ([1/2] : List ℚ).length ++
        maskBits (firstSampleOf [1/2]) 16 % 256 ::
        maskBits (firstSampleOf [1/2]) 16 / 256 % 256 ::
        packBits ((deltasOf [1/2]).map compressEntry) 0 0 :=
  variable_container_layout [1/2] (List.cons_ne_nil _ _) (by norm_num)

end ClaimC3

section PackUnpackLemmas

lemma bytesVal_append : ∀ xs ys : List ℕ,
    bytesVal (xs ++ ys) = bytesVal xs + 256 ^ xs.length * bytesVal ys := by
  intro xs ys
  induction xs with
  | nil => simp [bytesVal]
  | cons b rest ih =>
    rw [List.cons_append]
    simp only [bytesVal, List.length_cons]
    rw [ih, pow_succ]
    ring

lemma lor_shiftLeft_eq_add (a b n : ℕ) (h : a < 2 ^ n) :
    a ||| b <<< n = a + b * 2 ^ n := by
  rw [Nat.shiftLeft_eq, Nat.lor_comm, mul_comm b (2 ^ n),
    ← Nat.mul_add_lt_is_or h b]
  ring

lemma flushFull_spec : ∀ (nbits acc : ℕ), acc < 2 ^ nbits →
    (flushFull acc nbits).2.2 < 8 ∧
    nbits = (flushFull acc nbits).2.2 + 8 * (flushFull acc nbits).1.length ∧
    acc = bytesVal (flushFull acc nbits).1 +
      (flushFull acc nbits).2.1 * 256 ^ (flushFull acc nbits).1.length ∧
    (flushFull acc nbits).2.1 < 2 ^ (flushFull acc nbits).2.2 ∧
    (∀ b ∈ (flushFull acc nbits).1, b < 256) := by
  intro nbits
  induction nbits using Nat.strong_induction_on with
  | _ nbits ih =>
    intro acc hacc
    rw [flushFull.eq_def]
    split_ifs with h8
    · have hrec : acc >>> 8 < 2 ^ (nbits - 8) := by
        rw [nat_shiftRight8]
        rw [Nat.div_lt_iff_lt_mul (by norm_num : (0:ℕ) < 256)]
        calc acc < 2 ^ nbits := hacc
        _ = 2 ^ (nbits - 8) * 256 := by
          rw [show (256 : ℕ) = 2 ^ 8 by norm_num, ← pow_add]
          congr 1
          omega
      obtain ⟨ih1, ih2, ih3, ih4, ih5⟩ := ih (nbits - 8) (by omega) (acc >>> 8) hrec
      refine ⟨ih1, by simpa using by omega, ?_, ih4, ?_⟩
      · simp only [bytesVal, List.length_cons, nat_and_255, pow_succ]
        rw [nat_shiftRight8] at ih3
        calc acc = acc % 256 + 256 * (acc / 256) := by omega
        _ = acc % 256 + 256 * (bytesVal (flushFull (acc >>> 8) (nbits - 8)).1 +
              (flushFull (acc >>> 8) (nbits - 8)).2.1 *
                256 ^ (flushFull (acc >>> 8) (nbits - 8)).1.length) := by
          rw [nat_shiftRight8, ← ih3]
        _ = _ := by ring
      · intro b hb
        simp only [List.mem_cons] at hb
        rcases hb with rfl | hb
        · rw [nat_and_255]; omega
        · exact ih5 b hb
    · have hn : nbits < 8 := by omega
      exact ⟨hn, by simp, by simp [bytesVal], hacc, by simp⟩

lemma packBits_spec : ∀ (entries : List Entry) (acc nbits : ℕ),
    acc < 2 ^ nbits → nbits < 8 →
    bytesVal (packBits entries acc nbits) =
      acc + entriesVal entries * 2 ^ nbits ∧
    (∀ b ∈ packBits entries acc nbits, b < 256) ∧
    nbits + sumBits entries ≤ 8 * (packBits entries acc nbits).length := by
  intro entries
  induction entries with
  | nil =>
    intro acc nbits hacc hn8
    simp only [packBits, entriesVal, sumBits]
    split_ifs with h0
    · have h256 : acc < 256 := by
        have h28 : (2:ℕ) ^ nbits ≤ 2 ^ 8 := Nat.pow_le_pow_right (by norm_num) (by omega)
        norm_num at h28
        omega
      refine ⟨?_, ?_, ?_⟩
      · simp [bytesVal, nat_and_255, Nat.mod_eq_of_lt h256]
      · intro b hb
        simp only [List.mem_singleton] at hb
        subst hb
        rw [nat_and_255]
        omega
      · simp
        omega
    · have hz : nbits = 0 := by omega
      subst hz
      have hz2 : acc = 0 := by
        norm_num at hacc
        omega
      subst hz2
      exact ⟨by simp [bytesVal], by simp, by simp⟩
  | cons e rest ih =>
    intro acc nbits hacc hn8
    simp only [packBits, entriesVal, sumBits]
    have hm := maskBits_lt e.value e.bits
    have hacc2eq : acc ||| maskBits e.value e.bits <<< nbits =
        acc + maskBits e.value e.bits * 2 ^ nbits :=
      lor_shiftLeft_eq_add _ _ _ hacc
    have hacc2lt : acc ||| maskBits e.value e.bits <<< nbits <
        2 ^ (nbits + e.bits) := by
      rw [hacc2eq]
      calc acc + maskBits e.value e.bits * 2 ^ nbits
          < 2 ^ nbits + maskBits e.value e.bits * 2 ^ nbits := by omega
        _ = 2 ^ nbits * (maskBits e.value e.bits + 1) := by ring
        _ ≤ 2 ^ nbits * 2 ^ e.bits := Nat.mul_le_mul_left _ (by omega)
        _ = 2 ^ (nbits + e.bits) := (pow_add 2 nbits e.bits).symm
    obtain ⟨f1, f2, f3, f4, f5⟩ :=
      flushFull_spec (nbits + e.bits) (acc ||| maskBits e.value e.bits <<< nbits)
        hacc2lt
    set F := flushFull (acc ||| maskBits e.value e.bits <<< nbits)
      (nbits + e.bits) with hF
    obtain ⟨p1, p2, p3⟩ := ih F.2.1 F.2.2 f4 f1
    refine ⟨?_, ?_, ?_⟩
    · have h256p : (256:ℕ) ^ F.1.length = 2 ^ (8 * F.1.length) := by
        rw [show (256:ℕ) = 2 ^ 8 by norm_num, ← pow_mul]
      calc bytesVal (F.1 ++ packBits rest F.2.1 F.2.2)
          = bytesVal F.1 + 256 ^ F.1.length * bytesVal (packBits rest F.2.1 F.2.2) :=
            bytesVal_append _ _
        _ = bytesVal F.1 + 256 ^ F.1.length * (F.2.1 + entriesVal rest * 2 ^ F.2.2) := by
            rw [p1]
        _ = (bytesVal F.1 + F.2.1 * 256 ^ F.1.length) +
              entriesVal rest * (2 ^ F.2.2 * 256 ^ F.1.length) := by ring
        _ = (acc + maskBits e.value e.bits * 2 ^ nbits) +
              entriesVal rest * 2 ^ (nbits + e.bits) := by
            rw [← f3, hacc2eq, h256p, ← pow_add]
            congr 3
            omega
        _ = acc + (maskBits e.value e.bits + entriesVal rest * 2 ^ e.bits) *
              2 ^ nbits := by
            rw [pow_add]
            ring
    · intro b hb
      rcases List.mem_append.1 hb with hb | hb
      · exact f5 b hb
      · exact p2 b hb
    · rw [List.length_append]
      omega

lemma pullBytes_spec : ∀ (buf : List ℕ) (acc nbits w : ℕ),
    acc < 2 ^ nbits → (∀ b ∈ buf, b < 256) → w ≤ nbits + 8 * buf.length →
    ∃ buf2 acc2 nbits2,
      pullBytes buf acc nbits w = some (buf2, acc2, nbits2) ∧
      acc2 < 2 ^ nbits2 ∧ w ≤ nbits2 ∧ (∀ b ∈ buf2, b < 256) ∧
      acc2 + bytesVal buf2 * 2 ^ nbits2 = acc + bytesVal buf * 2 ^ nbits ∧
      nbits2 + 8 * buf2.length = nbits + 8 * buf.length := by
  intro buf
  induction buf with
  | nil =>
    intro acc nbits w hacc hb hw
    simp only [List.length_nil, Nat.mul_zero, Nat.add_zero] at hw
    refine ⟨[], acc, nbits, ?_, hacc, hw, by simp, rfl, rfl⟩
    rw [pullBytes.eq_def]
    simp [hw]
  | cons b rest ih =>
    intro acc nbits w hacc hb hw
    by_cases hcase : w ≤ nbits
    · refine ⟨b :: rest, acc, nbits, ?_, hacc, hcase, hb, rfl, rfl⟩
      rw [pullBytes.eq_def]
      simp [hcase]
    · have hb256 : b < 256 := hb b (List.mem_cons_self _ _)
      have hrest : ∀ x ∈ rest, x < 256 := fun x hx => hb x (List.mem_cons_of_mem _ hx)
      have heq : acc ||| b <<< nbits = acc + b * 2 ^ nbits :=
        lor_shiftLeft_eq_add _ _ _ hacc
      have hlt : acc ||| b <<< nbits < 2 ^ (nbits + 8) := by
        rw [heq]
        calc acc + b * 2 ^ nbits < 2 ^ nbits + b * 2 ^ nbits := by omega
          _ = 2 ^ nbits * (b + 1) := by ring
          _ ≤ 2 ^ nbits * 2 ^ 8 := Nat.mul_le_mul_left _ (by omega)
          _ = 2 ^ (nbits + 8) := (pow_add 2 nbits 8).symm
      have hw2 : w ≤ (nbits + 8) + 8 * rest.length := by
        simp only [List.length_cons] at hw
        omega
      obtain ⟨buf2, acc2, nbits2, hpull, q1, q2, q3, q4, q5⟩ :=
        ih (acc ||| b <<< nbits) (nbits + 8) w hlt hrest hw2
      refine ⟨buf2, acc2, nbits2, ?_, q1, q2, q3, ?_, ?_⟩
      · rw [pullBytes.eq_def]
        simp only [hcase, if_false]
        exact hpull
      · rw [q4, heq]
        simp only [bytesVal]
        rw [pow_add]
        ring
      · simp only [List.length_cons]
        omega

lemma unpackBits_spec : ∀ (ws : List ℕ) (buf : List ℕ) (acc nbits : ℕ),
    acc < 2 ^ nbits → (∀ b ∈ buf, b < 256) →
    ws.sum ≤ nbits + 8 * buf.length →
    unpackBits buf ws acc nbits =
      some (chunkList ws (acc + bytesVal buf * 2 ^ nbits)) := by
  intro ws
  induction ws with
  | nil =>
    intro buf acc nbits _ _ _
    cases buf <;> rfl
  | cons w ws ih =>
    intro buf acc nbits hacc hb hsum
    have hwle : w ≤ nbits + 8 * buf.length := by
      simp only [List.sum_cons] at hsum
      omega
    obtain ⟨buf2, acc2, nbits2, hpull, q1, q2, q3, q4, q5⟩ :=
      pullBytes_spec buf acc nbits w hacc hb hwle
    have haccb : acc2 >>> w < 2 ^ (nbits2 - w) := by
      rw [Nat.shiftRight_eq_div_pow]
      rw [Nat.div_lt_iff_lt_mul (Nat.pos_pow_of_pos w (by norm_num))]
      calc acc2 < 2 ^ nbits2 := q1
        _ = 2 ^ (nbits2 - w) * 2 ^ w := by
          rw [← pow_add]
          congr 1
          omega
    have hsumb : ws.sum ≤ (nbits2 - w) + 8 * buf2.length := by
      simp only [List.sum_cons] at hsum
      omega
    have hstep := ih buf2 (acc2 >>> w) (nbits2 - w) haccb q3 hsumb
    rw [unpackBits.eq_def]
    simp only [hpull, hstep, Option.map_map]
    have hsplit : (2:ℕ) ^ nbits2 = 2 ^ (nbits2 - w) * 2 ^ w := by
      rw [← pow_add]
      congr 1
      omega
    have hM : acc + bytesVal buf * 2 ^ nbits =
        acc2 + bytesVal buf2 * 2 ^ (nbits2 - w) * 2 ^ w := by
      rw [← q4, hsplit]
      ring
    have hmod : acc2 &&& (2 ^ w - 1) = (acc + bytesVal buf * 2 ^ nbits) % 2 ^ w := by
      rw [Nat.and_pow_two_sub_one_eq_mod, hM]
      rw [Nat.add_mul_mod_self_right]
    have hdiv : acc2 >>> w + bytesVal buf2 * 2 ^ (nbits2 - w) =
        (acc + bytesVal buf * 2 ^ nbits) / 2 ^ w := by
      rw [Nat.shiftRight_eq_div_pow, hM,
        Nat.add_mul_div_right _ _ (Nat.pos_pow_of_pos w (by norm_num))]
    simp only [chunkList, ← hmod, ← hdiv]
    rfl

lemma maskBits_of_fit (v : ℤ) (bits : ℕ) (h0 : 0 ≤ v) (h1 : v < 2 ^ bits) :
    maskBits v bits = v.toNat := by
  have h := maskBits_nonneg_eq v bits h0 h1
  omega

lemma chunkList_entriesVal : ∀ (entries : List Entry),
    (∀ e ∈ entries, 0 ≤ e.value ∧ e.value < 2 ^ e.bits) →
    chunkList (entries.map Entry.bits) (entriesVal entries) =
      entries.map (fun e => e.value.toNat) := by
  intro entries
  induction entries with
  | nil => intro _; rfl
  | cons e rest ih =>
    intro hv
    obtain ⟨h0, h1⟩ := hv e (List.mem_cons_self _ _)
    have hrest := fun x hx => hv x (List.mem_cons_of_mem e hx)
    have hmlt : maskBits e.value e.bits < 2 ^ e.bits := maskBits_lt _ _
    simp only [List.map_cons, chunkList, entriesVal]
    have hmlt2 : e.value.toNat < 2 ^ e.bits := by
      rw [← maskBits_of_fit e.value e.bits h0 h1]
      exact hmlt
    rw [Nat.add_mul_mod_self_right, Nat.mod_eq_of_lt hmlt,
      maskBits_of_fit e.value e.bits h0 h1,
      Nat.add_mul_div_right _ _ (Nat.pos_pow_of_pos e.bits (by norm_num)),
      Nat.div_eq_of_lt hmlt2]
    simp only [Nat.zero_add]
    rw [ih hrest]

lemma sumBits_eq_sum_map (entries : List Entry) :
    sumBits entries = (entries.map Entry.bits).sum := by
  induction entries with
  | nil => rfl
  | cons e rest ih => simp [sumBits, ih]

end PackUnpackLemmas

section ClaimC2

/-- C2: bit-packing round trip — for every entry list with widths in
`{4, 8, 12, 16}` and codes that are unsigned values fitting their widths,
unpacking the packed byte buffer with the same ordered width sequence
returns exactly the original codes, whether or not the total bit length is
a multiple of 8 (the padding bits of a final partial byte never appear in
any decoded value).  The unpacker is modelled from spec §4.3, since the
repository stores no unpacker of its own. -/
theorem pack_unpack_roundtrip (entries : List Entry)
    (hw : ∀ e ∈ entries, e.bits = 4 ∨ e.bits = 8 ∨ e.bits = 12 ∨ e.bits = 16)
    (hv : ∀ e ∈ entries, 0 ≤ e.value ∧ e.value < 2 ^ e.bits) :
    unpackStream (packBits entries 0 0) (entries.map Entry.bits) =
      some (entries.map fun e => e.value.toNat) := by
  obtain ⟨hval, hbytes, hlen⟩ := packBits_spec entries 0 0 (by norm_num) (by norm_num)
  unfold unpackStream
  have hsum : (entries.map Entry.bits).sum ≤ 0 + 8 * (packBits entries 0 0).length := by
    rw [← sumBits_eq_sum_map]
    omega
  rw [unpackBits_spec (entries.map Entry.bits) (packBits entries 0 0) 0 0
    (by norm_num) hbytes hsum]
  have hM : (0 : ℕ) + bytesVal (packBits entries 0 0) * 2 ^ 0 = entriesVal entries := by
    rw [hval]
    norm_num
  rw [hM, chunkList_entriesVal entries hv]

/-- Witness for C2 on a mixed-width entry list whose total bit length
(4 + 12 + 16 + 8 + 4 = 44) is not a multiple of 8. -/
theorem pack_unpack_roundtrip_witness :
    unpackStream
      (packBits ([⟨.small, 4, 5⟩, ⟨.large, 12, 1000⟩, ⟨.reference, 16, 40000⟩,
        ⟨.medium, 8, 200⟩, ⟨.small, 4, 9⟩] : List Entry) 0 0)
      [4, 12, 16, 8, 4] = some [5, 1000, 40000, 200, 9] :=
  pack_unpack_roundtrip _ (by decide) (by decide)

end ClaimC2

section GbaLemmas

lemma clampI_range (x : ℤ) :
    -128 ≤ clampI (-128) 127 x ∧ clampI (-128) 127 x ≤ 127 := by
  unfold clampI
  omega

lemma clampI_eq_self (lo hi x : ℤ) (h1 : lo ≤ x) (h2 : x ≤ hi) :
    clampI lo hi x = x := by
  unfold clampI
  omega

lemma wrap8_eq_self (x : ℤ) (h1 : -128 ≤ x) (h2 : x ≤ 127) : wrap8 x = x := by
  unfold wrap8
  omega

lemma int8_roundtrip (v : ℤ) (h1 : -128 ≤ v) (h2 : v ≤ 127) :
    byteToInt8 (int8Byte v) = v := by
  unfold byteToInt8 int8Byte
  split_ifs with h <;> omega

lemma roundHalfEven_err (q : ℚ) : |((roundHalfEven q : ℤ) : ℚ) - q| ≤ 1/2 := by
  have h0 : ((⌊q⌋ : ℤ) : ℚ) ≤ q := Int.floor_le q
  have h1 : q < ((⌊q⌋ : ℤ) : ℚ) + 1 := Int.lt_floor_add_one q
  simp only [roundHalfEven]
  split_ifs with hr hr2 hpar
  · rw [abs_le]
    constructor <;> linarith
  · push_cast
    rw [abs_le]
    constructor <;> linarith
  · push_neg at hr hr2
    rw [abs_le]
    constructor <;> linarith
  · push_neg at hr hr2
    push_cast
    rw [abs_le]
    constructor <;> linarith

lemma abs_le_peakOf : ∀ (audio : List ℚ), ∀ x ∈ audio, |x| ≤ peakOf audio := by
  intro audio
  induction audio with
  | nil => simp
  | cons a t ih =>
    intro x hx
    rcases List.mem_cons.1 hx with rfl | hx
    · exact le_max_left _ _
    · exact le_trans (ih x hx) (le_max_right _ _)

lemma mem_zipWith_imp {α β γ : Type} (f : α → β → γ) (P : γ → Prop)
    (hP : ∀ a b, P (f a b)) :
    ∀ (xs : List α) (ys : List β), ∀ c ∈ List.zipWith f xs ys, P c := by
  intro xs
  induction xs with
  | nil => intro ys c hc; simp at hc
  | cons x xs ih =>
    intro ys c hc
    cases ys with
    | nil => simp at hc
    | cons y ys =>
      simp only [List.zipWith_cons_cons, List.mem_cons] at hc
      rcases hc with rfl | hc
      · exact hP x y
      · exact ih ys c hc

lemma zipWith_getD {α β γ : Type} (f : α → β → γ) (dflt : γ) (da : α) (db : β) :
    ∀ (xs : List α) (ys : List β) (i : ℕ), i < xs.length → i < ys.length →
      (List.zipWith f xs ys).getD i dflt = f (xs.getD i da) (ys.getD i db) := by
  intro xs
  induction xs with
  | nil => intro ys i h1 h2; simp at h1
  | cons x xs ih =>
    intro ys i h1 h2
    cases ys with
    | nil => simp at h2
    | cons y ys =>
      cases i with
      | zero => rfl
      | succ j =>
        simp only [List.zipWith_cons_cons, List.getD_cons_succ]
        exact ih ys j (by simpa using h1) (by simpa using h2)

lemma gbaQuantize_range (audio dither : List ℚ) :
    ∀ v ∈ gbaQuantize audio dither, -128 ≤ v ∧ v ≤ 127 := by
  unfold gbaQuantize
  exact mem_zipWith_imp _ (fun v => -128 ≤ v ∧ v ≤ 127)
    (fun s d => clampI_range _) audio dither

lemma gbaDeltas_range (q : List ℤ) :
    ∀ v ∈ gbaDeltas q, -128 ≤ v ∧ v ≤ 127 := by
  unfold gbaDeltas
  exact mem_zipWith_imp _ (fun v => -128 ≤ v ∧ v ≤ 127)
    (fun a b => clampI_range _) q q.tail

lemma gbaQuantize_length (audio dither : List ℚ)
    (hlen : dither.length = audio.length) :
    (gbaQuantize audio dither).length = audio.length := by
  unfold gbaQuantize
  rw [List.length_zipWith, hlen, min_self]

lemma gbaQuantize_headI_range (audio dither : List ℚ) :
    -128 ≤ (gbaQuantize audio dither).headI ∧
      (gbaQuantize audio dither).headI ≤ 127 := by
  cases hq : gbaQuantize audio dither with
  | nil => simp [List.headI]
  | cons a t =>
    have := gbaQuantize_range audio dither a (by rw [hq]; exact List.mem_cons_self a t)
    simpa using this

lemma gbaDeltas_bytes_roundtrip (q : List ℤ) :
    ((gbaDeltas q).map int8Byte).map byteToInt8 = gbaDeltas q := by
  rw [List.map_map]
  have h : ∀ d ∈ gbaDeltas q, (byteToInt8 ∘ int8Byte) d = id d := by
    intro d hd
    obtain ⟨h1, h2⟩ := gbaDeltas_range q d hd
    simp only [Function.comp_apply, id_eq]
    exact int8_roundtrip d h1 h2
  rw [List.map_congr_left h, List.map_id]

lemma gbaDecode_gbaEncode (audio dither : List ℚ) :
    gbaDecode (gbaEncode audio dither) =
      .ok (6750,
        ((gbaQuantize audio dither).headI ::
          gbaReconFrom (gbaQuantize audio dither).headI
            (gbaDeltas (gbaQuantize audio dither))).dropLast.map
          (fun v : ℤ => (v : ℚ) / 127)) := by
  have hbytes : gbaEncode audio dither =
      70 :: 81 :: 87 :: 84 :: 94 :: 26 :: 0 :: 0 ::
        (gbaDeltas (gbaQuantize audio dither)).length % 256 ::
        (gbaDeltas (gbaQuantize audio dither)).length / 256 % 256 ::
        (gbaDeltas (gbaQuantize audio dither)).length / 65536 % 256 ::
        (gbaDeltas (gbaQuantize audio dither)).length / 16777216 % 256 ::
        int8Byte (gbaQuantize audio dither).headI ::
        (gbaDeltas (gbaQuantize audio dither)).map int8Byte := by
    norm_num [gbaEncode, le32Bytes]
  rw [hbytes]
  unfold gbaDecode
  rw [if_neg (by simp), if_neg (by simp)]
  obtain ⟨hh1, hh2⟩ := gbaQuantize_headI_range audio dither
  have hfirst : byteToInt8 (int8Byte (gbaQuantize audio dither).headI) =
      (gbaQuantize audio dither).headI :=
    int8_roundtrip _ hh1 hh2
  have hmap := gbaDeltas_bytes_roundtrip (gbaQuantize audio dither)
  simp only [List.drop_succ_cons, List.drop_zero, List.getD_cons_succ,
    List.getD_cons_zero, List.take_succ_cons, List.take_zero, hfirst, hmap]
  norm_num [bytesVal]

lemma gbaRecon_exact : ∀ (t : List ℤ) (a : ℤ),
    (∀ v ∈ a :: t, -128 ≤ v ∧ v ≤ 127) →
    (∀ i, i + 1 < (a :: t).length →
      -128 ≤ (a :: t).getD (i+1) 0 - (a :: t).getD i 0 ∧
      (a :: t).getD (i+1) 0 - (a :: t).getD i 0 ≤ 127) →
    gbaReconFrom a (gbaDeltas (a :: t)) = t := by
  intro t
  induction t with
  | nil => intro a _ _; rfl
  | cons b t ih =>
    intro a hr hs
    have hd : -128 ≤ b - a ∧ b - a ≤ 127 := by
      have h := hs 0 (by simp)
      simpa using h
    have hb : -128 ≤ b ∧ b ≤ 127 := hr b (by simp)
    have hdel : gbaDeltas (a :: b :: t) =
        clampI (-128) 127 (b - a) :: gbaDeltas (b :: t) := rfl
    rw [hdel]
    simp only [gbaReconFrom]
    rw [clampI_eq_self _ _ _ hd.1 hd.2, show a + (b - a) = b by ring,
      wrap8_eq_self b hb.1 hb.2, clampI_eq_self _ _ _ hb.1 hb.2]
    congr 1
    apply ih b
    · intro v hv
      exact hr v (List.mem_cons_of_mem a hv)
    · intro i hi
      have h := hs (i + 1) (by
        simp only [List.length_cons] at hi ⊢
        omega)
      simpa using h

end GbaLemmas

section ClaimC1

/-- Counterexample to C1: decoding the fixed-width encoding of `[1.0, 0.0]`
(with zero dither, a possible draw) returns a single sample, not two — the
decoder drops the last reconstructed sample — and that sample `121/127`
differs from the original `1.0` by `6/127`, exceeding the claimed bound
`1/127` although no clamp boundary is crossed. -/
theorem gba_roundtrip_loses_last_sample :
    gbaDecode (gbaEncode [1, 0] [0, 0]) = .ok (6750, [121/127]) ∧
    ([121/127] : List ℚ).length ≠ ([1, 0] : List ℚ).length ∧
    ¬(|(121/127 : ℚ) - 1| ≤ 1/127) := by
  refine ⟨?_, by simp, ?_⟩
  · have h := gbaDecode_gbaEncode [1, 0] [0, 0]
    have hq : gbaQuantize [1, 0] [0, 0] = [121, 0] := by
      norm_num [gbaQuantize, gbaScale, peakOf, roundHalfEven, clampI,
        abs_of_nonneg, max_def]
    rw [hq] at h
    have hds : gbaDeltas [121, 0] = [-121] := by
      norm_num [gbaDeltas, clampI, max_def, min_def]
    rw [hds] at h
    have hrec : gbaReconFrom (121 : ℤ) [-121] = [0] := by
      norm_num [gbaReconFrom, wrap8, clampI, max_def, min_def]
    simpa [hrec] using h
  · rw [abs_of_nonpos (by norm_num)]
    norm_num

/-- C1 (amended): with the random dither made explicit (each draw lies in
`[-1/2, 1/2]`), a positive input peak, and no delta saturation between
consecutive quantized samples, decoding the fixed-width container yields
`len(samples) - 1` samples (the decoder drops the final reconstructed
sample), and each decoded sample differs from the correspondingly
peak-rescaled original `samples[i] * (121/peak) / 127` by at most the
quantization step `1/127`. -/
theorem gba_fixed_width_roundtrip (samples dither : List ℚ)
    (h : samples ≠ []) (hlen : dither.length = samples.length)
    (hd : ∀ d ∈ dither, |d| ≤ 1/2) (hpk : 0 < peakOf samples)
    (hsat : ∀ i, i + 1 < (gbaQuantize samples dither).length →
      -128 ≤ (gbaQuantize samples dither).getD (i+1) 0 -
        (gbaQuantize samples dither).getD i 0 ∧
      (gbaQuantize samples dither).getD (i+1) 0 -
        (gbaQuantize samples dither).getD i 0 ≤ 127) :
    ∃ out : List ℚ,
      gbaDecode (gbaEncode samples dither) = .ok (6750, out) ∧
      out.length = samples.length - 1 ∧
      ∀ i, i < out.length →
        |out.getD i 0 - samples.getD i 0 * (121 / peakOf samples) / 127| ≤
          1 / 127 := by
  have hql : (gbaQuantize samples dither).length = samples.length :=
    gbaQuantize_length samples dither hlen
  have hscale : gbaScale samples = 121 / peakOf samples := by
    rw [gbaScale, if_pos hpk]
  have hqi : ∀ i, i < samples.length →
      (gbaQuantize samples dither).getD i 0 =
        roundHalfEven (samples.getD i 0 * (121 / peakOf samples) +
          dither.getD i 0) ∧
      |(((gbaQuantize samples dither).getD i 0 : ℤ) : ℚ) -
        (samples.getD i 0 * (121 / peakOf samples) + dither.getD i 0)| ≤
        1/2 := by
    intro i hi
    have hid : i < dither.length := by omega
    have hiq : i < (gbaQuantize samples dither).length := by omega
    have hsmem : samples.getD i 0 ∈ samples := by
      rw [List.getD_eq_getElem _ _ hi]
      exact List.getElem_mem hi
    have hdmem : dither.getD i 0 ∈ dither := by
      rw [List.getD_eq_getElem _ _ hid]
      exact List.getElem_mem hid
    have hget : (gbaQuantize samples dither).getD i 0 =
        clampI (-128) 127 (roundHalfEven (samples.getD i 0 *
          (121 / peakOf samples) + dither.getD i 0)) := by
      have hz : (gbaQuantize samples dither).getD i 0 =
          clampI (-128) 127 (roundHalfEven (samples.getD i 0 * gbaScale samples +
            dither.getD i 0)) :=
        zipWith_getD
          (fun s d => clampI (-128) 127 (roundHalfEven (s * gbaScale samples + d)))
          0 0 0 samples dither i hi hid
      rw [hscale] at hz
      exact hz
    set x := samples.getD i 0 * (121 / peakOf samples) + dither.getD i 0
      with hx0
    have hxb : |samples.getD i 0 * (121 / peakOf samples)| ≤ 121 := by
      rw [abs_mul, abs_of_pos (div_pos (by norm_num) hpk)]
      calc |samples.getD i 0| * (121 / peakOf samples) ≤
          peakOf samples * (121 / peakOf samples) :=
            mul_le_mul_of_nonneg_right (abs_le_peakOf samples _ hsmem)
              (le_of_lt (div_pos (by norm_num) hpk))
        _ = 121 := by field_simp
    have hxsum : |x| ≤ 243/2 := by
      rw [hx0]
      calc |samples.getD i 0 * (121 / peakOf samples) + dither.getD i 0| ≤
          |samples.getD i 0 * (121 / peakOf samples)| + |dither.getD i 0| :=
            abs_add _ _
        _ ≤ 121 + 1/2 := add_le_add hxb (hd _ hdmem)
        _ ≤ 243/2 := by norm_num
    have herr := roundHalfEven_err x
    have habs : |((roundHalfEven x : ℤ) : ℚ)| ≤ 122 := by
      calc |((roundHalfEven x : ℤ) : ℚ)|
          = |(((roundHalfEven x : ℤ) : ℚ) - x) + x| := by rw [sub_add_cancel]
        _ ≤ |((roundHalfEven x : ℤ) : ℚ) - x| + |x| := abs_add _ _
        _ ≤ 1/2 + 243/2 := add_le_add herr hxsum
        _ = 122 := by norm_num
    have hr1 : -128 ≤ roundHalfEven x := by
      have h1 := (abs_le.1 habs).1
      have h2 : (-122 : ℤ) ≤ roundHalfEven x := by exact_mod_cast h1
      omega
    have hr2 : roundHalfEven x ≤ 127 := by
      have h1 := (abs_le.1 habs).2
      have h2 : roundHalfEven x ≤ (122 : ℤ) := by exact_mod_cast h1
      omega
    rw [hget, clampI_eq_self _ _ _ hr1 hr2]
    exact ⟨rfl, herr⟩
  cases hq : gbaQuantize samples dither with
  | nil =>
    exfalso
    have hz : samples.length = 0 := by
      rw [← hql, hq]
      rfl
    exact h (List.length_eq_zero.1 hz)
  | cons a t =>
    have hparse := gbaDecode_gbaEncode samples dither
    rw [hq] at hparse
    have hrange : ∀ v ∈ a :: t, -128 ≤ v ∧ v ≤ 127 := by
      intro v hv
      exact gbaQuantize_range samples dither v (hq ▸ hv)
    have hsat2 : ∀ i, i + 1 < (a :: t).length →
        -128 ≤ (a :: t).getD (i+1) 0 - (a :: t).getD i 0 ∧
        (a :: t).getD (i+1) 0 - (a :: t).getD i 0 ≤ 127 := by
      intro i hi
      have hh := hsat i (by rw [hq]; exact hi)
      rw [hq] at hh
      exact hh
    have hrec := gbaRecon_exact t a hrange hsat2
    simp only [List.headI_cons, hrec] at hparse
    have hslen : samples.length = t.length + 1 := by
      rw [← hql, hq]
      rfl
    refine ⟨_, hparse, ?_, ?_⟩
    · simp [hslen]
    · intro i hi
      simp only [List.length_map, List.length_dropLast, List.length_cons] at hi
      have hit : i < t.length := by omega
      have hisam : i < samples.length := by omega
      have hout : (((a :: t).dropLast.map (fun v : ℤ => (v : ℚ) / 127))).getD i 0 =
          (((a :: t).getD i 0 : ℤ) : ℚ) / 127 := by
        rw [List.getD_eq_getElem _ _ (by simp; omega)]
        simp only [List.getElem_map, List.getElem_dropLast]
        rw [List.getD_eq_getElem _ _ (by simp; omega : i < (a :: t).length)]
      have hqd : (a :: t).getD i 0 = (gbaQuantize samples dither).getD i 0 := by
        rw [hq]
      obtain ⟨hq1, hq2⟩ := hqi i hisam
      have hid : i < dither.length := by omega
      have hdmem : dither.getD i 0 ∈ dither := by
        rw [List.getD_eq_getElem _ _ hid]
        exact List.getElem_mem hid
      rw [hout, hqd, div_sub_div_same, abs_div,
        show |(127 : ℚ)| = 127 from abs_of_pos (by norm_num),
        div_le_div_right (by norm_num : (0 : ℚ) < 127)]
      calc |(((gbaQuantize samples dither).getD i 0 : ℤ) : ℚ) -
            samples.getD i 0 * (121 / peakOf samples)|
          = |((((gbaQuantize samples dither).getD i 0 : ℤ) : ℚ) -
              (samples.getD i 0 * (121 / peakOf samples) +
                dither.getD i 0)) + dither.getD i 0| := by ring_nf
        _ ≤ |(((gbaQuantize samples dither).getD i 0 : ℤ) : ℚ) -
              (samples.getD i 0 * (121 / peakOf samples) +
                dither.getD i 0)| + |dither.getD i 0| := abs_add _ _
        _ ≤ 1/2 + 1/2 := add_le_add hq2 (hd _ hdmem)
        _ = 1 := by norm_num

/-- Witness for the amended C1 at samples `[1, 1/2]` with zero dither. -/
theorem gba_fixed_width_roundtrip_witness :
    ∃ out : List ℚ,
      gbaDecode (gbaEncode [1, 1/2] [0, 0]) = .ok (6750, out) ∧
      out.length = ([1, 1/2] : List ℚ).length - 1 ∧
      ∀ i, i < out.length →
        |out.getD i 0 -
          ([1, 1/2] : List ℚ).getD i 0 * (121 / peakOf [1, 1/2]) / 127| ≤
          1 / 127 := by
  have hfr : Int.fract ((121 : ℚ)/2) = 1/2 := by
    rw [Int.fract]
    norm_num
  have hq : gbaQuantize [1, 1/2] [0, 0] = [121, 60] := by
    norm_num [gbaQuantize, gbaScale, peakOf, roundHalfEven, clampI,
      abs_of_nonneg, max_def, min_def, hfr]
  apply gba_fixed_width_roundtrip [1, 1/2] [0, 0] (List.cons_ne_nil _ _) rfl
  · intro d hd
    simp only [List.mem_cons, List.not_mem_nil, or_false] at hd
    rcases hd with rfl | rfl <;> norm_num [abs_of_nonneg]
  · norm_num [peakOf, abs_of_nonneg, max_def]
  · rw [hq]
    intro i hi
    simp only [List.length_cons, List.length_nil] at hi
    have hi0 : i = 0 := by omega
    subst hi0
    norm_num

end ClaimC1

section ClaimC7

/-- Counterexample to C7: a fixed-width container whose header declares 5
deltas but carries only 2 delta bytes decodes successfully — the decoder
reads the declared count but never compares it with the bytes available —
reconstructing partial audio instead of failing with `TruncatedStream`. -/
theorem truncated_container_decodes_successfully :
    gbaDecode ([70, 81, 87, 84] ++ le32Bytes 6750 ++ le32Bytes 5 ++
      [0] ++ [1, 2]) = .ok (6750, [0, 1/127]) := by
  norm_num [gbaDecode, le32Bytes, bytesVal, byteToInt8, gbaReconFrom,
    wrap8, clampI, max_def, min_def]

/-- C7 (amended): decoding a buffer whose first 4 bytes differ from the
magic tag fails with `Bad magic` and reconstructs no audio; but the
fixed-width decoder has no `TruncatedStream` failure: the declared delta
count is read and ignored, so a container declaring more deltas than it
carries decodes successfully from whatever delta bytes are present (here a
count of 5 with no delta bytes yields an empty reconstruction). -/
theorem gba_decode_failure_modes :
    (∀ bytes : List ℕ, bytes.take 4 ≠ [70, 81, 87, 84] →
      gbaDecode bytes = .error "Bad magic") ∧
    gbaDecode ([70, 81, 87, 84] ++ le32Bytes 6750 ++ le32Bytes 5 ++ [0]) =
      .ok (6750, []) := by
  constructor
  · intro bytes hb
    unfold gbaDecode
    rw [if_pos hb]
  · norm_num [gbaDecode, le32Bytes, bytesVal, byteToInt8, gbaReconFrom]

/-- Witness for the amended C7: a 4-byte buffer with a wrong tag is
rejected with `Bad magic`. -/
theorem gba_decode_failure_modes_witness :
    gbaDecode [9, 9, 9, 9] = .error "Bad magic" :=
  gba_decode_failure_modes.1 [9, 9, 9, 9] (by decide)

end ClaimC7

section ClaimC9

/-- Counterexample to C9: the fixed-width encoder adds dither drawn from
process-wide RNG state (`np.random.triangular(-0.5, 0, 0.5)`), so two
encode calls on the same samples and sample rate can return different
bytes: with dither draws `(0, 0)` versus `(0, 1/4)` — both inside the
triangular support — the containers differ. -/
theorem gba_encode_depends_on_dither :
    gbaEncode [1, 1/2] [0, 0] ≠ gbaEncode [1, 1/2] [0, 1/4] ∧
    (∀ d ∈ ([0, 0] : List ℚ), |d| ≤ 1/2) ∧
    (∀ d ∈ ([0, 1/4] : List ℚ), |d| ≤ 1/2) := by
  refine ⟨?_, ?_, ?_⟩
  · have hfr : Int.fract ((121 : ℚ)/2) = 1/2 := by
      rw [Int.fract]
      norm_num
    have hfr2 : Int.fract ((243 : ℚ)/4) = 3/4 := by
      rw [Int.fract]
      norm_num
    have h1 : gbaQuantize [1, 1/2] [0, 0] = [121, 60] := by
      norm_num [gbaQuantize, gbaScale, peakOf, roundHalfEven, clampI,
        abs_of_nonneg, max_def, min_def, hfr]
    have h2 : gbaQuantize [1, 1/2] [0, 1/4] = [121, 61] := by
      norm_num [gbaQuantize, gbaScale, peakOf, roundHalfEven, clampI,
        abs_of_nonneg, max_def, min_def, hfr2]
    simp only [gbaEncode, h1, h2]
    norm_num [gbaDeltas, clampI, int8Byte, max_def, min_def]
    decide
  · intro d hd
    simp only [List.mem_cons, List.not_mem_nil, or_false] at hd
    rcases hd with rfl | rfl <;> norm_num [abs_of_nonneg]
  · intro d hd
    simp only [List.mem_cons, List.not_mem_nil, or_false] at hd
    rcases hd with rfl | rfl <;> norm_num [abs_of_nonneg]

/-- C9 (amended): with the dither made an explicit input, every codec
operation is deterministic — the variable-width encoder and decoder are
pure functions of their inputs, and the fixed-width encoder and decoder are
pure functions of their inputs once the internally drawn random dither is
included among them; the fixed-width encoder is NOT a function of samples
and sample rate alone. -/
theorem codec_determinism_given_dither :
    (∀ a₁ a₂ : List ℚ, a₁ = a₂ →
      compress_audio_delta a₁ = compress_audio_delta a₂) ∧
    (∀ (e₁ e₂ : List Entry) (f₁ f₂ : ℤ), e₁ = e₂ → f₁ = f₂ →
      decode_delta_data e₁ f₁ = decode_delta_data e₂ f₂) ∧
    (∀ s₁ s₂ d₁ d₂ : List ℚ, s₁ = s₂ → d₁ = d₂ →
      gbaEncode s₁ d₁ = gbaEncode s₂ d₂) ∧
    (∀ b₁ b₂ : List ℕ, b₁ = b₂ → gbaDecode b₁ = gbaDecode b₂) :=
  ⟨fun _ _ ha => ha ▸ rfl,
   fun _ _ _ _ he hf => he ▸ hf ▸ rfl,
   fun _ _ _ _ hs hdt => hs ▸ hdt ▸ rfl,
   fun _ _ hb => hb ▸ rfl⟩

/-- Witness for the amended C9 at concrete inputs. -/
theorem codec_determinism_given_dither_witness :
    compress_audio_delta [1/3] = compress_audio_delta [1/3] ∧
    gbaEncode [1/3] [0] = gbaEncode [1/3] [0] :=
  ⟨codec_determinism_given_dither.1 [1/3] [1/3] rfl,
   codec_determinism_given_dither.2.2.1 [1/3] [1/3] [0] [0] rfl rfl⟩

end ClaimC9

end PolygonGBA
